import Mathlib

/-!
Verification of the structural-diff core of the repository
(`ord/utils.py`): the flattener `flatten`, the leaf-path resolver
`flat_deepdiff_entry`, the diff classifier `parse_deepdiff`, and the
best-match solver `find_best_match`, together with theorems settling
the specification claims about them.

Python values are modelled by the inductive `PVal` (scalars, dicts as
association lists in insertion order, lists).  Dict keys are modelled
by `Key`: strings, non-negative integers (list indices produced by
`enumerate`), and tuples of keys (the path tuples that appear as keys
of an already-flattened dictionary).
-/

/-- Dictionary keys / path segments: strings, integer indices, and
tuple keys (a flattened dictionary uses path tuples as keys). -/
inductive Key where
  | s : String → Key
  | i : Nat → Key
  | tup : List Key → Key

/-- Scalar (leaf) values: strings, integers, booleans and Python
`None` (which is also the marker `flatten` emits for an empty
container). -/
inductive Scalar where
  | str : String → Scalar
  | n : Int → Scalar
  | b : Bool → Scalar
  | null : Scalar
deriving DecidableEq

mutual

/-- Boolean equality on keys (structural). -/
def keyBeq : Key → Key → Bool
  | .s a, .s b => a == b
  | .i a, .i b => a == b
  | .tup a, .tup b => keyListBeq a b
  | _, _ => false

/-- Boolean equality on lists of keys. -/
def keyListBeq : List Key → List Key → Bool
  | [], [] => true
  | a :: as, b :: bs => keyBeq a b && keyListBeq as bs
  | _, _ => false

end

/-- Nested Python structures: scalars, dictionaries (association lists
in insertion order, as Python dicts preserve insertion order) and
lists. -/
inductive PVal where
  | scalar : Scalar → PVal
  | dict : List (Key × PVal) → PVal
  | list : List PVal → PVal

mutual

/-- Size measure on values used for termination of `flatten`
(ignores the sizes of keys, which the Python code never recurses
into). -/
def psize : PVal → Nat
  | .scalar _ => 1
  | .dict es => esize es + 1
  | .list xs => lsize xs + 1

/-- Size measure on dictionary entry lists. -/
def esize : List (Key × PVal) → Nat
  | [] => 0
  | (_, v) :: rest => psize v + esize rest + 1

/-- Size measure on value lists. -/
def lsize : List PVal → Nat
  | [] => 0
  | x :: xs => psize x + lsize xs + 2

end

mutual

/-- Embedding of `flatten(dictionary, parent_key)` from `ord/utils.py`
(lines 29-61).  The Python function iterates over the items of the
dictionary; `flatten es parent` processes the entry list `es` with the
accumulated `parent_key` path (`[]` models `parent_key=None`; Python
computes `new_key = list(parent_key) + [key]` when `parent_key` is
truthy and `[key]` otherwise, both of which equal `parent ++ [key]`).
The result models `dict(items)` as the item list in order. -/
def flatten : List (Key × PVal) → List Key → List (List Key × Scalar)
  | [], _ => []
  | (k, v) :: rest, parent => flattenEntry k v parent ++ flatten rest parent
termination_by es _ => esize es
decreasing_by
  all_goals simp [psize, esize, lsize]
  all_goals omega

/-- Processing of a single dictionary item `(key, value)` inside the
loop of `flatten`: an empty dict or empty list value contributes
`(new_key, None)`; a non-empty dict recurses; a non-empty list
recurses on each `enumerate`d element via a singleton dict; any other
value is a leaf. -/
def flattenEntry (k : Key) (v : PVal) (parent : List Key) :
    List (List Key × Scalar) :=
  match v with
  | .dict [] => [(parent ++ [k], Scalar.null)]
  | .dict (e :: es) => flatten (e :: es) (parent ++ [k])
  | .list [] => [(parent ++ [k], Scalar.null)]
  | .list (x :: xs) => flattenList (x :: xs) 0 (parent ++ [k])
  | .scalar sc => [(parent ++ [k], sc)]
termination_by psize v
decreasing_by
  all_goals simp [psize, esize, lsize]

/-- The loop `for k, v in enumerate(value): items.extend(flatten({k: v},
new_key).items())` over the elements of a list value, carrying the
running `enumerate` index. -/
def flattenList : List PVal → Nat → List Key → List (List Key × Scalar)
  | [], _, _ => []
  | x :: xs, idx, nk => flatten [(Key.i idx, x)] nk ++ flattenList xs (idx + 1) nk
termination_by xs _ _ => lsize xs
decreasing_by
  all_goals simp [psize, esize, lsize]
  all_goals omega

end

/-- Either a real Python value or the deepdiff `NotPresent` sentinel. -/
inductive DVal where
  | val : PVal → DVal
  | notPresent : DVal

/-- Embedding of `flat_deepdiff_entry(t, path_list)` from `ord/utils.py`
(lines 64-85): a dict side is flattened and its paths are prefixed with
`path_list`; a list side is wrapped under the dummy key
`"DUMMY" * 3`, flattened, the dummy segment is stripped
(`list(k)[1:]`) and the paths prefixed; the `NotPresent` sentinel
yields `{path: None}`; a scalar yields `{path: value}`. -/
def flat_deepdiff_entry (t : DVal) (path_list : List Key) :
    List (List Key × Scalar) :=
  match t with
  | .val (.dict es) =>
      (flatten es []).map (fun kv => (path_list ++ kv.1, kv.2))
  | .val (.list xs) =>
      let dummy_header := Key.s "DUMMYDUMMYDUMMY"
      let t1 := flatten [(dummy_header, PVal.list xs)] []
      t1.map (fun kv => (path_list ++ kv.1.drop 1, kv.2))
  | .notPresent => [(path_list, Scalar.null)]
  | .val (.scalar sc) => [(path_list, sc)]

/-- Spec-side first-match association lookup, modelling indexing a
Python dict (whose keys are unique) by a key. -/
def lookupKey : List (Key × PVal) → Key → Option PVal
  | [], _ => none
  | (k0, v) :: rest, k => if keyBeq k0 k then some v else lookupKey rest k

/-- Spec-side accessor: the value reached from `v` by following path
`p` (dict keys, then list positions for integer segments). -/
def getPath : PVal → List Key → Option PVal
  | v, [] => some v
  | .dict es, k :: ks =>
      match lookupKey es k with
      | some w => getPath w ks
      | none => none
  | .list xs, Key.i n :: ks =>
      match xs[n]? with
      | some w => getPath w ks
      | none => none
  | _, _ => none

mutual

/-- Spec-side walk of a value: one leaf for a scalar, one for a
genuinely empty container, and the sum over the members otherwise. -/
def countVal : PVal → Nat
  | .scalar _ => 1
  | .dict [] => 1
  | .dict (e :: es) => countEntries (e :: es)
  | .list [] => 1
  | .list (x :: xs) => countList (x :: xs)

/-- Walk of the entries of a dictionary. -/
def countEntries : List (Key × PVal) → Nat
  | [] => 0
  | (_, v) :: rest => countVal v + countEntries rest

/-- Walk of the elements of a list. -/
def countList : List PVal → Nat
  | [] => 0
  | x :: xs => countVal x + countList xs

end

mutual

/-- Spec-side walk counting only the scalar (non-container) values
reachable below the top level. -/
def scalarsVal : PVal → Nat
  | .scalar _ => 1
  | .dict es => scalarsEntries es
  | .list xs => scalarsList xs

/-- Scalar count over the entries of a dictionary. -/
def scalarsEntries : List (Key × PVal) → Nat
  | [] => 0
  | (_, v) :: rest => scalarsVal v + scalarsEntries rest

/-- Scalar count over the elements of a list. -/
def scalarsList : List PVal → Nat
  | [] => 0
  | x :: xs => scalarsVal x + scalarsList xs

end

mutual

/-- Spec-side walk counting only the genuinely empty containers
encountered below the top level. -/
def emptiesVal : PVal → Nat
  | .scalar _ => 0
  | .dict [] => 1
  | .dict (e :: es) => emptiesEntries (e :: es)
  | .list [] => 1
  | .list (x :: xs) => emptiesList (x :: xs)

/-- Empty-container count over the entries of a dictionary. -/
def emptiesEntries : List (Key × PVal) → Nat
  | [] => 0
  | (_, v) :: rest => emptiesVal v + emptiesEntries rest

/-- Empty-container count over the elements of a list. -/
def emptiesList : List PVal → Nat
  | [] => 0
  | x :: xs => emptiesVal x + emptiesList xs

end

/-- Reinterpreting the mapping produced by `flatten` as an input
dictionary: each path tuple becomes a tuple-valued key and each leaf
scalar stays a scalar (this is exactly what passing the result of the
Python `flatten` back into `flatten` operates on). -/
def toDict (l : List (List Key × Scalar)) : List (Key × PVal) :=
  l.map (fun kv => (Key.tup kv.1, PVal.scalar kv.2))

/-- One entry of the deepdiff tree-view report: the two sides of the
difference (`t1` from the first structure, `t2` from the second,
either possibly the `NotPresent` sentinel) and the structural paths to
them on each side. -/
structure DiffLevel where
  t1 : DVal
  t2 : DVal
  path1 : List Key
  path2 : List Key

/-- The deepdiff report keys (`REPORT_KEYS` from `deepdiff.model`). -/
inductive ReportKey where
  | type_changes
  | dictionary_item_added
  | dictionary_item_removed
  | values_changed
  | unprocessed
  | iterable_item_added
  | iterable_item_removed
  | attribute_added
  | attribute_removed
  | set_item_removed
  | set_item_added
  | repetition_change

/-- One item of `dd.to_dict()`: either the scalar `deep_distance`
metric or a set of `DiffLevel` entries under one of the report keys
(`DeepDiff.to_dict` produces no other shape, which is what
`assert dd_report_key in REPORT_KEYS` in the source checks). -/
inductive ReportItem where
  | deepDistance : Rat → ReportItem
  | diffs : ReportKey → List DiffLevel → ReportItem

/-- The nine outputs of `parse_deepdiff` (utils.py 116-170), in the
order of the returned tuple. -/
structure ParseResult where
  deep_distance : Rat
  paths_added : List (List Key)
  paths_removed : List (List Key)
  paths_altered_1 : List (List Key)
  paths_altered_2 : List (List Key)
  leaf_paths_added : List (List Key)
  leaf_paths_removed : List (List Key)
  leaf_paths_altered_1 : List (List Key)
  leaf_paths_altered_2 : List (List Key)

/-- The test `isinstance(..., NotPresent)` on one side of an entry. -/
def np : DVal → Bool
  | .notPresent => true
  | .val _ => false

/-- The body of the inner loop of `parse_deepdiff` for one
`DiffLevel`: classify it as added / removed / altered, or raise
`ValueError` (modelled as `Except.error ()`) when both sides are
`NotPresent`. -/
def processLevel (acc : ParseResult) (l : DiffLevel) :
    Except Unit ParseResult :=
  let t1_leafs := flat_deepdiff_entry l.t1 l.path1
  let t2_leafs := flat_deepdiff_entry l.t2 l.path2
  if np l.t1 && !np l.t2 then
    .ok { acc with
      paths_added := acc.paths_added ++ [l.path2],
      leaf_paths_added := acc.leaf_paths_added ++ t2_leafs.map Prod.fst }
  else if !np l.t1 && np l.t2 then
    .ok { acc with
      paths_removed := acc.paths_removed ++ [l.path1],
      leaf_paths_removed := acc.leaf_paths_removed ++ t1_leafs.map Prod.fst }
  else if !np l.t1 && !np l.t2 then
    .ok { acc with
      paths_altered_1 := acc.paths_altered_1 ++ [l.path1],
      paths_altered_2 := acc.paths_altered_2 ++ [l.path2],
      leaf_paths_altered_1 := acc.leaf_paths_altered_1 ++ t1_leafs.map Prod.fst,
      leaf_paths_altered_2 := acc.leaf_paths_altered_2 ++ t2_leafs.map Prod.fst }
  else .error ()

/-- The inner `for value_altered_level in v` loop; an exception aborts
the remaining iterations. -/
def processLevels (acc : ParseResult) :
    List DiffLevel → Except Unit ParseResult
  | [] => .ok acc
  | l :: ls =>
      match processLevel acc l with
      | .ok acc2 => processLevels acc2 ls
      | .error e => .error e

/-- One iteration of the outer loop over `dd.to_dict().items()`: a
`deep_distance` item overwrites the running distance and `continue`s;
any other item runs the inner loop over its entries. -/
def processItem (acc : ParseResult) : ReportItem → Except Unit ParseResult
  | .deepDistance d => .ok { acc with deep_distance := d }
  | .diffs _ ls => processLevels acc ls

/-- The outer loop of `parse_deepdiff`. -/
def processItems (acc : ParseResult) :
    List ReportItem → Except Unit ParseResult
  | [] => .ok acc
  | it :: items =>
      match processItem acc it with
      | .ok acc2 => processItems acc2 items
      | .error e => .error e

/-- The initial state: `deep_distance = 0` and eight empty lists. -/
def emptyResult : ParseResult := ⟨0, [], [], [], [], [], [], [], []⟩

/-- Embedding of `parse_deepdiff(dd)` (utils.py 116-170). -/
def parse_deepdiff (report : List ReportItem) : Except Unit ParseResult :=
  processItems emptyResult report

/-- Spec side: all `DiffLevel` entries of a report in processing
order (entries bearing only the deep-distance metric contribute
none). -/
def allLevels (report : List ReportItem) : List DiffLevel :=
  report.flatMap fun it =>
    match it with
    | .deepDistance _ => []
    | .diffs _ ls => ls

/-- Sentinel pattern of an entry present in the second structure only. -/
def isAdded (l : DiffLevel) : Bool := np l.t1 && !np l.t2

/-- Sentinel pattern of an entry present in the first structure only. -/
def isRemoved (l : DiffLevel) : Bool := !np l.t1 && np l.t2

/-- Sentinel pattern of an entry present on both sides. -/
def isAltered (l : DiffLevel) : Bool := !np l.t1 && !np l.t2

/-- Sentinel pattern of the invalid state: `NotPresent` on both sides. -/
def isBad (l : DiffLevel) : Bool := np l.t1 && np l.t2

/-- Spec side: the B-side paths of the added entries, in order. -/
def addedOf (ls : List DiffLevel) : List (List Key) :=
  ls.filterMap fun l => if isAdded l then some l.path2 else none

/-- Spec side: the A-side paths of the removed entries, in order. -/
def removedOf (ls : List DiffLevel) : List (List Key) :=
  ls.filterMap fun l => if isRemoved l then some l.path1 else none

/-- Spec side: the A-side paths of the altered entries, in order. -/
def altered1Of (ls : List DiffLevel) : List (List Key) :=
  ls.filterMap fun l => if isAltered l then some l.path1 else none

/-- Spec side: the B-side paths of the altered entries, in order. -/
def altered2Of (ls : List DiffLevel) : List (List Key) :=
  ls.filterMap fun l => if isAltered l then some l.path2 else none

/-- Spec side: the leaf paths below the added entries' B sides. -/
def leafAddedOf (ls : List DiffLevel) : List (List Key) :=
  ls.flatMap fun l =>
    if isAdded l then (flat_deepdiff_entry l.t2 l.path2).map Prod.fst else []

/-- Spec side: the leaf paths below the removed entries' A sides. -/
def leafRemovedOf (ls : List DiffLevel) : List (List Key) :=
  ls.flatMap fun l =>
    if isRemoved l then (flat_deepdiff_entry l.t1 l.path1).map Prod.fst else []

/-- Spec side: the leaf paths below the altered entries' A sides. -/
def leafAltered1Of (ls : List DiffLevel) : List (List Key) :=
  ls.flatMap fun l =>
    if isAltered l then (flat_deepdiff_entry l.t1 l.path1).map Prod.fst else []

/-- Spec side: the leaf paths below the altered entries' B sides. -/
def leafAltered2Of (ls : List DiffLevel) : List (List Key) :=
  ls.flatMap fun l =>
    if isAltered l then (flat_deepdiff_entry l.t2 l.path2).map Prod.fst else []

/-- Spec side: the final value of the running `deep_distance`
variable (the last distance item wins; `0` if there is none). -/
def lastDist (d : Rat) : List ReportItem → Rat
  | [] => d
  | .deepDistance x :: rest => lastDist x rest
  | .diffs _ _ :: rest => lastDist d rest

/-- All ways of picking one element out of a list: the element and the
remaining pool with order preserved, enumerated by position. -/
def selections {α : Type} : List α → List (α × List α)
  | [] => []
  | x :: xs => (x, xs) :: (selections xs).map (fun p => (p.1, x :: p.2))

/-- Embedding of `itertools.permutations(pool, r)`: all ordered
selections of `r` elements drawn from `pool` without reusing a
position, in the enumeration order of `itertools` (lexicographic in
the positions picked). -/
def perms {α : Type} : List α → Nat → List (List α)
  | _, 0 => [[]]
  | xs, r + 1 => (selections xs).flatMap fun p => (perms p.2 r).map (p.1 :: ·)

/-- The cost loop of `find_best_match`: sum `distance_matrix[i1][i2]`
over `zip(indices1, match)`, skipping placeholder (`None`) slots. -/
def match_cost (indices1 : List Nat) (dm : Nat → Nat → Rat)
    (m : List (Option Nat)) : Rat :=
  (indices1.zip m).foldl
    (fun acc p =>
      match p.2 with
      | none => acc
      | some i2 => acc + dm p.1 i2) 0

/-- One step of the running-minimum loop of `find_best_match`:
`best_match_distance` starts at `math.inf` (modelled as `none`) and a
candidate replaces the current best exactly when its cost is strictly
smaller (any finite cost beats `inf`). -/
def bmStep {α : Type} (f : α → Rat) (acc : Option (Rat × α)) (m : α) :
    Option (Rat × α) :=
  match acc with
  | none => some (f m, m)
  | some (bd, bm) => if f m < bd then some (f m, m) else some (bd, bm)

/-- Embedding of `find_best_match(indices1, indices2, distance_matrix)`
(utils.py 96-113): exhaustive minimisation over
`itertools.permutations(indices2, len(indices1))`.  The
`assert best_match_solution is not None` failing (no permutation
exists) is modelled as `none`; otherwise the result models
`dict(zip(indices1, best_match_solution))` as a zip list. -/
def find_best_match (indices1 : List Nat) (indices2 : List (Option Nat))
    (dm : Nat → Nat → Rat) : Option (List (Nat × Option Nat)) :=
  match (perms indices2 indices1.length).foldl
      (bmStep (match_cost indices1 dm)) none with
  | none => none
  | some (_, bm) => some (indices1.zip bm)

/-- Reference form of the running minimum: the earliest minimum of `f`
over `b :: l` (ties keep the earlier candidate). -/
def bestOf {α : Type} (f : α → Rat) : α → List α → α
  | b, [] => b
  | b, m :: rest => bestOf f (if f m < f b then m else b) rest

/-- The distance matrix of the small optimality test:
(0,0) = 1, (0,1) = 5, (1,0) = 5, (1,1) = 1. -/
def dmEx : Nat → Nat → Rat := fun a b =>
  if a = 0 && b = 0 then 1
  else if a = 0 && b = 1 then 5
  else if a = 1 && b = 0 then 5
  else if a = 1 && b = 1 then 1
  else 0

/-- A distance matrix whose (0,1) entry is 3 (other entries
arbitrary and non-negative). -/
def dm2 : Nat → Nat → Rat := fun a b => if a = 0 && b = 1 then 3 else 7

/-- The input of the idempotence counterexample: `{"x": 1}`. -/
def dEx : List (Key × PVal) := [(Key.s "x", PVal.scalar (Scalar.n 1))]

/-- A small concrete diff report: a distance item, one altered entry
and one added entry. -/
def reportEx : List ReportItem :=
  [ReportItem.deepDistance 1,
   ReportItem.diffs ReportKey.values_changed
     [⟨DVal.val (PVal.scalar (Scalar.n 1)), DVal.val (PVal.scalar (Scalar.n 2)),
       [Key.s "a"], [Key.s "a"]⟩],
   ReportItem.diffs ReportKey.dictionary_item_added
     [⟨DVal.notPresent, DVal.val (PVal.scalar (Scalar.n 3)),
       [Key.s "b"], [Key.s "b"]⟩]]

/-- The classification of `reportEx`. -/
def rEx : ParseResult :=
  ⟨1, [[Key.s "b"]], [], [[Key.s "a"]], [[Key.s "a"]],
   [[Key.s "b"]], [], [[Key.s "a"]], [[Key.s "a"]]⟩

/-- A report with an entry that is `NotPresent` on both sides. -/
def reportBad : List ReportItem :=
  [ReportItem.diffs ReportKey.values_changed
    [⟨DVal.notPresent, DVal.notPresent, [], []⟩]]

mutual

theorem keyBeq_iff : ∀ a b : Key, keyBeq a b = true ↔ a = b
  | .s a, .s b => by simp [keyBeq]
  | .s _, .i _ => by simp [keyBeq]
  | .s _, .tup _ => by simp [keyBeq]
  | .i _, .s _ => by simp [keyBeq]
  | .i a, .i b => by simp [keyBeq]
  | .i _, .tup _ => by simp [keyBeq]
  | .tup _, .s _ => by simp [keyBeq]
  | .tup _, .i _ => by simp [keyBeq]
  | .tup a, .tup b => by simp [keyBeq, keyListBeq_iff a b]

theorem keyListBeq_iff : ∀ a b : List Key, keyListBeq a b = true ↔ a = b
  | [], [] => by simp [keyListBeq]
  | [], _ :: _ => by simp [keyListBeq]
  | _ :: _, [] => by simp [keyListBeq]
  | a :: as, b :: bs => by
      simp [keyListBeq, keyBeq_iff a b, keyListBeq_iff as bs]

end

/-- Each selection returned by `selections` removes exactly one
element from the pool. -/
theorem selections_mem_length {α : Type} :
    ∀ (xs : List α) (p : α × List α), p ∈ selections xs →
      p.2.length + 1 = xs.length
  | [], p, hp => by simp [selections] at hp
  | x :: xs, p, hp => by
      rw [selections, List.mem_cons] at hp
      rcases hp with rfl | hp
      · simp
      · rw [List.mem_map] at hp
        obtain ⟨q, hq, rfl⟩ := hp
        have hlen := selections_mem_length xs q hq
        simp only [List.length_cons]
        omega

/-- Every member of `perms xs r` has length `r`. -/
theorem mem_perms_length {α : Type} :
    ∀ (r : Nat) (xs : List α) (m : List α), m ∈ perms xs r → m.length = r
  | 0, xs, m, hm => by
      rw [perms] at hm
      simp at hm
      subst hm
      rfl
  | r + 1, xs, m, hm => by
      rw [perms, List.mem_flatMap] at hm
      obtain ⟨p, hp, hm⟩ := hm
      rw [List.mem_map] at hm
      obtain ⟨m2, hm2, rfl⟩ := hm
      simp [mem_perms_length r p.2 m2 hm2]

/-- `itertools.permutations(pool, r)` yields nothing when `r` exceeds
the pool size. -/
theorem perms_nil_of_lt {α : Type} :
    ∀ (r : Nat) (xs : List α), xs.length < r → perms xs r = []
  | 0, _, h => absurd h (Nat.not_lt_zero _)
  | r + 1, xs, h => by
      rw [perms]
      apply List.eq_nil_iff_forall_not_mem.mpr
      intro m hm
      rw [List.mem_flatMap] at hm
      obtain ⟨p, hp, hm⟩ := hm
      rw [List.mem_map] at hm
      obtain ⟨m2, hm2, _⟩ := hm
      have hlen := selections_mem_length xs p hp
      rw [perms_nil_of_lt r p.2 (by omega)] at hm2
      exact List.not_mem_nil m2 hm2

/-- `itertools.permutations(pool, r)` yields at least one tuple when
`r ≤ |pool|`. -/
theorem perms_ne_nil {α : Type} :
    ∀ (r : Nat) (xs : List α), r ≤ xs.length → perms xs r ≠ []
  | 0, xs, _ => by simp [perms]
  | r + 1, [], h => by simp at h
  | r + 1, x :: xs, h => by
      rw [perms, selections, List.flatMap_cons]
      intro hcon
      rcases List.append_eq_nil.mp hcon with ⟨h2, _⟩
      rw [List.map_eq_nil_iff] at h2
      exact perms_ne_nil r xs (by simpa using h) h2

/-- The fold of `bmStep` started from a candidate computes the
running minimum `bestOf`. -/
theorem foldl_bmStep {α : Type} (f : α → Rat) :
    ∀ (l : List α) (b : α),
      l.foldl (bmStep f) (some (f b, b)) =
        some (f (bestOf f b l), bestOf f b l)
  | [], b => by simp [bestOf]
  | m :: rest, b => by
      have hstep : bmStep f (some (f b, b)) m =
          some (f (if f m < f b then m else b), if f m < f b then m else b) := by
        rw [bmStep]
        split <;> rename_i h <;> simp [h]
      rw [List.foldl_cons, hstep, bestOf]
      exact foldl_bmStep f rest _

/-- The running minimum is one of the candidates. -/
theorem bestOf_mem {α : Type} (f : α → Rat) :
    ∀ (l : List α) (b : α), bestOf f b l ∈ b :: l
  | [], b => by rw [bestOf]; exact List.mem_cons_self _ _
  | m :: rest, b => by
      rw [bestOf]
      have h := bestOf_mem f rest (if f m < f b then m else b)
      rcases List.mem_cons.mp h with heq | hmem
      · rw [heq]
        split
        · exact List.mem_cons_of_mem _ (List.mem_cons_self _ _)
        · exact List.mem_cons_self _ _
      · exact List.mem_cons_of_mem _ (List.mem_cons_of_mem _ hmem)

/-- The running minimum costs no more than any candidate. -/
theorem bestOf_le {α : Type} (f : α → Rat) :
    ∀ (l : List α) (b : α) (x : α), x ∈ b :: l → f (bestOf f b l) ≤ f x
  | [], b, x, hx => by
      rcases List.mem_cons.mp hx with rfl | hx
      · rw [bestOf]
      · exact absurd hx (List.not_mem_nil x)
  | m :: rest, b, x, hx => by
      rw [bestOf]
      have hcb : f (if f m < f b then m else b) ≤ f b := by
        split <;> rename_i hs
        · exact le_of_lt hs
        · exact le_rfl
      have hcm : f (if f m < f b then m else b) ≤ f m := by
        split <;> rename_i hs
        · exact le_rfl
        · exact le_of_not_lt hs
      have hbest : f (bestOf f (if f m < f b then m else b) rest) ≤
          f (if f m < f b then m else b) :=
        bestOf_le f rest _ _ (List.mem_cons_self _ _)
      rcases List.mem_cons.mp hx with rfl | hx
      · exact le_trans hbest hcb
      · rcases List.mem_cons.mp hx with rfl | hx
        · exact le_trans hbest hcm
        · exact bestOf_le f rest _ x (List.mem_cons_of_mem _ hx)

/-- The running minimum is the first candidate attaining the minimal
cost: every candidate enumerated before it costs strictly more. -/
theorem bestOf_first {α : Type} (f : α → Rat) :
    ∀ (l : List α) (b : α),
      ∃ l1 l2, b :: l = l1 ++ bestOf f b l :: l2 ∧
        ∀ x ∈ l1, f (bestOf f b l) < f x
  | [], b => ⟨[], [], by simp [bestOf], by simp⟩
  | m :: rest, b => by
      rw [bestOf]
      by_cases h : f m < f b
      · rw [if_pos h]
        obtain ⟨l1, l2, heq, hlt⟩ := bestOf_first f rest m
        refine ⟨b :: l1, l2, ?_, ?_⟩
        · rw [List.cons_append, ← heq]
        · intro x hx
          rcases List.mem_cons.mp hx with rfl | hx
          · exact lt_of_le_of_lt (bestOf_le f rest m m (List.mem_cons_self _ _)) h
          · exact hlt x hx
      · rw [if_neg h]
        obtain ⟨l1, l2, heq, hlt⟩ := bestOf_first f rest b
        cases l1 with
        | nil =>
            rw [List.nil_append] at heq
            injection heq with h1 h2
            refine ⟨[], m :: rest, ?_, by simp⟩
            rw [List.nil_append, ← h1]
        | cons b1 l1x =>
            rw [List.cons_append] at heq
            injection heq with h1 h2
            subst h1
            refine ⟨b :: m :: l1x, l2, ?_, ?_⟩
            · rw [List.cons_append, List.cons_append, ← h2]
            · intro x hx
              have hltb : f (bestOf f b rest) < f b :=
                hlt b (List.mem_cons_self _ _)
              rcases List.mem_cons.mp hx with rfl | hx
              · exact hltb
              · rcases List.mem_cons.mp hx with rfl | hx
                · exact lt_of_lt_of_le hltb (le_of_not_lt h)
                · exact hlt x (List.mem_cons_of_mem _ hx)

/-- Unfolding of `find_best_match` when the permutation space is the
non-empty list `m0 :: rest`. -/
theorem find_best_match_spec (i1 : List Nat) (i2 : List (Option Nat))
    (dm : Nat → Nat → Rat) (m0 : List (Option Nat))
    (rest : List (List (Option Nat)))
    (hp : perms i2 i1.length = m0 :: rest) :
    find_best_match i1 i2 dm =
      some (i1.zip (bestOf (match_cost i1 dm) m0 rest)) := by
  rw [find_best_match, hp, List.foldl_cons]
  have h0 : bmStep (match_cost i1 dm) none m0 =
      some (match_cost i1 dm m0, m0) := rfl
  rw [h0, foldl_bmStep]

/-- Claim C1: for index lists with `len(indices2) >= len(indices1)`
and a total non-negative distance matrix, `find_best_match` returns
the zip of `indices1` with an ordered selection of `len(indices1)`
elements of `indices2` without repetition whose total cost is minimal
over all such selections, ties broken by first-encountered order of
the permutation enumeration; in particular on indices1 = [0,1],
indices2 = [0,1] with distances {(0,0):1,(0,1):5,(1,0):5,(1,1):1} it
returns {0:0, 1:1}. -/
theorem find_best_match_optimal (i1 : List Nat) (i2 : List (Option Nat))
    (dm : Nat → Nat → Rat) (_hnn : ∀ a b, 0 ≤ dm a b)
    (hlen : i1.length ≤ i2.length) :
    (∃ m, m ∈ perms i2 i1.length ∧ m.length = i1.length ∧
      find_best_match i1 i2 dm = some (i1.zip m) ∧
      (∀ m2 ∈ perms i2 i1.length,
        match_cost i1 dm m ≤ match_cost i1 dm m2) ∧
      (∃ l1 l2, perms i2 i1.length = l1 ++ m :: l2 ∧
        ∀ m2 ∈ l1, match_cost i1 dm m < match_cost i1 dm m2)) ∧
    find_best_match [0, 1] [some 0, some 1] dmEx =
      some [(0, some 0), (1, some 1)] := by
  constructor
  · have hne := perms_ne_nil i1.length i2 hlen
    cases hp : perms i2 i1.length with
    | nil => exact absurd hp hne
    | cons m0 rest =>
        have hmem : bestOf (match_cost i1 dm) m0 rest ∈ m0 :: rest :=
          bestOf_mem _ rest m0
        refine ⟨bestOf (match_cost i1 dm) m0 rest, ?_, ?_, ?_, ?_, ?_⟩
        · exact hmem
        · exact mem_perms_length _ _ _ (by rw [hp]; exact hmem)
        · exact find_best_match_spec i1 i2 dm m0 rest hp
        · intro m2 hm2
          exact bestOf_le _ rest m0 m2 hm2
        · exact bestOf_first _ rest m0
  · norm_num [find_best_match, perms, selections, match_cost, bmStep, dmEx]

/-- Witness for C1: the theorem applied at the concrete test input of
the specification. -/
theorem find_best_match_optimal_w :
    find_best_match [0, 1] [some 0, some 1] dmEx =
      some [(0, some 0), (1, some 1)] :=
  (find_best_match_optimal [0, 1] [some 0, some 1] dmEx
    (by
      intro a b
      simp only [dmEx]
      repeat' split
      all_goals norm_num)
    (by decide)).2

/-- Claim C2 counterexample: on indices1 = [0], indices2 = [None, 1]
with distance_matrix[0][1] = 3, `find_best_match` returns {0: None}
(the zero-cost placeholder pairing), not {0: 1} as the claim states. -/
theorem find_best_match_placeholder_cex :
    find_best_match [0] [none, some 1] dm2 = some [(0, none)] ∧
    find_best_match [0] [none, some 1] dm2 ≠ some [(0, some 1)] := by
  have h : find_best_match [0] [none, some 1] dm2 = some [(0, none)] := by
    norm_num [find_best_match, perms, selections, match_cost, bmStep, dm2]
  refine ⟨h, ?_⟩
  rw [h]
  intro hcon
  injection hcon with hcon
  injection hcon with hcon
  exact Option.noConfusion (congrArg Prod.snd hcon)

/-- Claim C2 amended: for indices1 = [0], indices2 = [None, 1] and any
distance matrix with a non-negative (0,1) entry, `find_best_match`
returns {0: None}: the zero-cost placeholder assignment is enumerated
first and a real match at non-negative distance never strictly beats
it, so the solver leaves index 0 unmatched. -/
theorem find_best_match_placeholder (dm : Nat → Nat → Rat)
    (h : 0 ≤ dm 0 1) :
    find_best_match [0] [none, some 1] dm = some [(0, none)] := by
  have hspace : perms ([none, some 1] : List (Option Nat))
      (([0] : List Nat).length) = [[none], [some 1]] := rfl
  rw [find_best_match, hspace, List.foldl_cons, List.foldl_cons, List.foldl_nil]
  have h1 : bmStep (match_cost [0] dm) none [none] =
      some (0, [none]) := rfl
  rw [h1]
  have hc2 : match_cost [0] dm [some 1] = 0 + dm 0 1 := rfl
  have h2 : bmStep (match_cost [0] dm) (some (0, [none])) [some 1] =
      some (0, [none]) := by
    rw [bmStep, hc2, zero_add, if_neg (not_lt.mpr h)]
  rw [h2]
  rfl

/-- Witness for the amended C2: applied at the concrete matrix with
entry (0,1) = 3. -/
theorem find_best_match_placeholder_w :
    find_best_match [0] [none, some 1] dm2 = some [(0, none)] :=
  find_best_match_placeholder dm2 (by norm_num [dm2])

/-- Claim C5: when `len(indices2) < len(indices1)` the permutation
space is empty, the final assertion of `find_best_match` fails
(modelled as `none`) and no partial or guessed assignment is
returned. -/
theorem find_best_match_underfull (i1 : List Nat) (i2 : List (Option Nat))
    (dm : Nat → Nat → Rat) (h : i2.length < i1.length) :
    find_best_match i1 i2 dm = none := by
  rw [find_best_match, perms_nil_of_lt i1.length i2 h, List.foldl_nil]

/-- Witness for C5: one real index against an empty candidate list. -/
theorem find_best_match_underfull_w :
    find_best_match [0] [] dmEx = none :=
  find_best_match_underfull [0] [] dmEx (by decide)

/-- Claim C9: `flat_deepdiff_entry` maps the `NotPresent` sentinel at
a path prefix to exactly that path bound to `None`, and a scalar
value to exactly that path bound to the value. -/
theorem flat_entry_sentinel_scalar (p : List Key) :
    flat_deepdiff_entry DVal.notPresent p = [(p, Scalar.null)] ∧
    ∀ sc : Scalar, flat_deepdiff_entry (DVal.val (PVal.scalar sc)) p = [(p, sc)] :=
  ⟨rfl, fun _ => rfl⟩

/-- Claim C10: `flat_deepdiff_entry` on an empty dict returns the
empty mapping (no leaf paths at all) while on an empty list it
returns `{path: None}`; consequently a diff entry added as an empty
dict contributes no leaf path to `leaf_paths_added` (its
`leaf_paths_added` stays empty) while one added as an empty list
contributes its path (the non-leaf `paths_added` records both). -/
theorem flat_entry_empty_containers (p p1 p2 : List Key) :
    flat_deepdiff_entry (DVal.val (PVal.dict [])) p = [] ∧
    flat_deepdiff_entry (DVal.val (PVal.list [])) p = [(p, Scalar.null)] ∧
    parse_deepdiff [ReportItem.diffs ReportKey.dictionary_item_added
        [⟨DVal.notPresent, DVal.val (PVal.dict []), p1, p2⟩]] =
      .ok ⟨0, [p2], [], [], [], [], [], [], []⟩ ∧
    parse_deepdiff [ReportItem.diffs ReportKey.iterable_item_added
        [⟨DVal.notPresent, DVal.val (PVal.list []), p1, p2⟩]] =
      .ok ⟨0, [p2], [], [], [], [p2], [], [], []⟩ := by
  refine ⟨?_, ?_, ?_, ?_⟩
  · simp [flat_deepdiff_entry, flatten]
  · simp [flat_deepdiff_entry, flatten, flattenEntry]
  · simp [parse_deepdiff, processItems, processItem, processLevels, processLevel,
      flat_deepdiff_entry, flatten, flattenEntry, np, emptyResult]
  · simp [parse_deepdiff, processItems, processItem, processLevels, processLevel,
      flat_deepdiff_entry, flatten, flattenEntry, np, emptyResult]

/-- A good (not both-`NotPresent`) entry is classified successfully. -/
theorem processLevel_ok_of_good (acc : ParseResult) (l : DiffLevel)
    (h : isBad l = false) : ∃ acc2, processLevel acc l = .ok acc2 := by
  cases hres : processLevel acc l with
  | ok acc2 => exact ⟨acc2, rfl⟩
  | error e =>
      cases h1 : np l.t1 <;> cases h2 : np l.t2
      · simp [processLevel, h1, h2] at hres
      · simp [processLevel, h1, h2] at hres
      · simp [processLevel, h1, h2] at hres
      · rw [isBad, h1, h2] at h
        exact absurd h (by simp)

/-- A both-`NotPresent` entry raises `ValueError`. -/
theorem processLevel_bad (acc : ParseResult) (l : DiffLevel)
    (h : isBad l = true) : processLevel acc l = .error () := by
  rw [isBad, Bool.and_eq_true] at h
  simp [processLevel, h.1, h.2]

/-- Running the inner loop over good entries appends, per class, the
paths and leaf paths of those entries to the accumulator fields, in
order. -/
theorem processLevels_ok (ls : List DiffLevel) :
    ∀ acc : ParseResult, (∀ l ∈ ls, isBad l = false) →
      processLevels acc ls = .ok
        ⟨acc.deep_distance,
         acc.paths_added ++ addedOf ls,
         acc.paths_removed ++ removedOf ls,
         acc.paths_altered_1 ++ altered1Of ls,
         acc.paths_altered_2 ++ altered2Of ls,
         acc.leaf_paths_added ++ leafAddedOf ls,
         acc.leaf_paths_removed ++ leafRemovedOf ls,
         acc.leaf_paths_altered_1 ++ leafAltered1Of ls,
         acc.leaf_paths_altered_2 ++ leafAltered2Of ls⟩ := by
  induction ls with
  | nil =>
      intro acc h
      simp [processLevels, addedOf, removedOf, altered1Of, altered2Of,
        leafAddedOf, leafRemovedOf, leafAltered1Of, leafAltered2Of]
  | cons l ls ih =>
      intro acc h
      have hbad : isBad l = false := h l (List.mem_cons_self _ _)
      have hrest : ∀ x ∈ ls, isBad x = false :=
        fun x hx => h x (List.mem_cons_of_mem _ hx)
      obtain ⟨d, pa, pr, q1, q2, la, lr, m1, m2⟩ := acc
      cases h1 : np l.t1 <;> cases h2 : np l.t2
      · -- altered
        have hpl : processLevel ⟨d, pa, pr, q1, q2, la, lr, m1, m2⟩ l = .ok
            ⟨d, pa, pr, q1 ++ [l.path1], q2 ++ [l.path2], la, lr,
             m1 ++ (flat_deepdiff_entry l.t1 l.path1).map Prod.fst,
             m2 ++ (flat_deepdiff_entry l.t2 l.path2).map Prod.fst⟩ := by
          simp [processLevel, h1, h2]
        simp only [processLevels, hpl]
        rw [ih _ hrest]
        simp [addedOf, removedOf, altered1Of, altered2Of, leafAddedOf,
          leafRemovedOf, leafAltered1Of, leafAltered2Of, isAdded, isRemoved,
          isAltered, h1, h2, List.append_assoc]
      · -- removed
        have hpl : processLevel ⟨d, pa, pr, q1, q2, la, lr, m1, m2⟩ l = .ok
            ⟨d, pa, pr ++ [l.path1], q1, q2, la,
             lr ++ (flat_deepdiff_entry l.t1 l.path1).map Prod.fst, m1, m2⟩ := by
          simp [processLevel, h1, h2]
        simp only [processLevels, hpl]
        rw [ih _ hrest]
        simp [addedOf, removedOf, altered1Of, altered2Of, leafAddedOf,
          leafRemovedOf, leafAltered1Of, leafAltered2Of, isAdded, isRemoved,
          isAltered, h1, h2, List.append_assoc]
      · -- added
        have hpl : processLevel ⟨d, pa, pr, q1, q2, la, lr, m1, m2⟩ l = .ok
            ⟨d, pa ++ [l.path2], pr, q1, q2,
             la ++ (flat_deepdiff_entry l.t2 l.path2).map Prod.fst, lr, m1, m2⟩ := by
          simp [processLevel, h1, h2]
        simp only [processLevels, hpl]
        rw [ih _ hrest]
        simp [addedOf, removedOf, altered1Of, altered2Of, leafAddedOf,
          leafRemovedOf, leafAltered1Of, leafAltered2Of, isAdded, isRemoved,
          isAltered, h1, h2, List.append_assoc]
      · -- both NotPresent: contradicts goodness
        rw [isBad, h1, h2] at hbad
        exact absurd hbad (by simp)

/-- The inner loop raises `ValueError` whenever some entry is
`NotPresent` on both sides. -/
theorem processLevels_err (ls : List DiffLevel) :
    ∀ acc : ParseResult, (∃ l ∈ ls, isBad l = true) →
      processLevels acc ls = .error () := by
  induction ls with
  | nil =>
      intro acc h
      simp at h
  | cons l ls ih =>
      intro acc h
      cases hb : isBad l
      · obtain ⟨acc2, hacc2⟩ := processLevel_ok_of_good acc l hb
        simp only [processLevels, hacc2]
        apply ih
        rcases h with ⟨x, hx, hbad⟩
        rcases List.mem_cons.mp hx with rfl | hx
        · rw [hb] at hbad
          exact absurd hbad (by simp)
        · exact ⟨x, hx, hbad⟩
      · simp only [processLevels, processLevel_bad acc l hb]

/-- Running the outer loop over a report whose entries are all good
classifies every entry, taking the last distance item as the deep
distance. -/
theorem processItems_ok (items : List ReportItem) :
    ∀ acc : ParseResult, (∀ l ∈ allLevels items, isBad l = false) →
      processItems acc items = .ok
        ⟨lastDist acc.deep_distance items,
         acc.paths_added ++ addedOf (allLevels items),
         acc.paths_removed ++ removedOf (allLevels items),
         acc.paths_altered_1 ++ altered1Of (allLevels items),
         acc.paths_altered_2 ++ altered2Of (allLevels items),
         acc.leaf_paths_added ++ leafAddedOf (allLevels items),
         acc.leaf_paths_removed ++ leafRemovedOf (allLevels items),
         acc.leaf_paths_altered_1 ++ leafAltered1Of (allLevels items),
         acc.leaf_paths_altered_2 ++ leafAltered2Of (allLevels items)⟩ := by
  induction items with
  | nil =>
      intro acc h
      simp [processItems, allLevels, lastDist, addedOf, removedOf, altered1Of,
        altered2Of, leafAddedOf, leafRemovedOf, leafAltered1Of, leafAltered2Of]
  | cons it items ih =>
      intro acc h
      cases it with
      | deepDistance dd =>
          have hlv : allLevels (ReportItem.deepDistance dd :: items) =
              allLevels items := by simp [allLevels]
          rw [hlv] at h
          simp only [processItems, processItem]
          rw [ih _ h]
          simp [lastDist, hlv]
      | diffs k ls =>
          have hlv : allLevels (ReportItem.diffs k ls :: items) =
              ls ++ allLevels items := by simp [allLevels]
          rw [hlv] at h
          have hls : ∀ l ∈ ls, isBad l = false :=
            fun l hl => h l (List.mem_append_left _ hl)
          have hrest : ∀ l ∈ allLevels items, isBad l = false :=
            fun l hl => h l (List.mem_append_right _ hl)
          simp only [processItems, processItem]
          rw [processLevels_ok ls acc hls]
          refine Eq.trans (ih _ hrest) ?_
          simp [lastDist, hlv, addedOf, removedOf, altered1Of, altered2Of,
            leafAddedOf, leafRemovedOf, leafAltered1Of, leafAltered2Of,
            List.filterMap_append, List.flatMap_append, List.append_assoc]

/-- The outer loop raises `ValueError` whenever some entry of the
report is `NotPresent` on both sides. -/
theorem processItems_err (items : List ReportItem) :
    ∀ acc : ParseResult, (∃ l ∈ allLevels items, isBad l = true) →
      processItems acc items = .error () := by
  induction items with
  | nil =>
      intro acc h
      simp [allLevels] at h
  | cons it items ih =>
      intro acc h
      cases it with
      | deepDistance dd =>
          have hlv : allLevels (ReportItem.deepDistance dd :: items) =
              allLevels items := by simp [allLevels]
          rw [hlv] at h
          simp only [processItems, processItem]
          exact ih _ h
      | diffs k ls =>
          have hlv : allLevels (ReportItem.diffs k ls :: items) =
              ls ++ allLevels items := by simp [allLevels]
          rw [hlv] at h
          by_cases hc : ∃ l ∈ ls, isBad l = true
          · simp only [processItems, processItem]
            rw [processLevels_err ls acc hc]
          · have hls : ∀ l ∈ ls, isBad l = false := by
              intro l hl
              rcases hbl : isBad l with _ | _
              · rfl
              · exact absurd ⟨l, hl, hbl⟩ hc
            simp only [processItems, processItem]
            rw [processLevels_ok ls acc hls]
            apply ih
            rcases h with ⟨x, hx, hbad⟩
            rcases List.mem_append.mp hx with hx | hx
            · rw [hls x hx] at hbad
              exact absurd hbad (by simp)
            · exact ⟨x, hx, hbad⟩

/-- Expansion of `addedOf` on a cons. -/
theorem addedOf_cons (l : DiffLevel) (ls : List DiffLevel) :
    addedOf (l :: ls) = (if isAdded l then [l.path2] else []) ++ addedOf ls := by
  cases h : isAdded l <;> simp [addedOf, List.filterMap_cons, h]

/-- Expansion of `removedOf` on a cons. -/
theorem removedOf_cons (l : DiffLevel) (ls : List DiffLevel) :
    removedOf (l :: ls) = (if isRemoved l then [l.path1] else []) ++ removedOf ls := by
  cases h : isRemoved l <;> simp [removedOf, List.filterMap_cons, h]

/-- Expansion of `altered1Of` on a cons. -/
theorem altered1Of_cons (l : DiffLevel) (ls : List DiffLevel) :
    altered1Of (l :: ls) = (if isAltered l then [l.path1] else []) ++ altered1Of ls := by
  cases h : isAltered l <;> simp [altered1Of, List.filterMap_cons, h]

/-- Over good entries, every entry lands in exactly one of the three
classes: the class sizes add up to the number of entries. -/
theorem classified_length (ls : List DiffLevel)
    (h : ∀ l ∈ ls, isBad l = false) :
    (addedOf ls).length + (removedOf ls).length + (altered1Of ls).length
      = ls.length := by
  induction ls with
  | nil => simp [addedOf, removedOf, altered1Of]
  | cons l ls ih =>
      have hl : isBad l = false := h l (List.mem_cons_self _ _)
      have hrest : ∀ x ∈ ls, isBad x = false :=
        fun x hx => h x (List.mem_cons_of_mem _ hx)
      have ihr := ih hrest
      rw [addedOf_cons, removedOf_cons, altered1Of_cons]
      cases h1 : np l.t1 <;> cases h2 : np l.t2
      · simp [isAdded, isRemoved, isAltered, h1, h2]
        omega
      · simp [isAdded, isRemoved, isAltered, h1, h2]
        omega
      · simp [isAdded, isRemoved, isAltered, h1, h2]
        omega
      · rw [isBad, h1, h2] at hl
        exact absurd hl (by simp)

/-- Claim C3: whenever `parse_deepdiff` returns a result, every diff
entry of the report is classified into exactly one of the three
classes according to its sentinel pattern (B-path into the added sets
when only the A side is `NotPresent`, A-path into the removed sets
when only the B side is, both paths into the altered sets when
neither is), no entry is dropped (the class sizes sum to the entry
count), and distance-only items contribute nothing to the path sets
(the deep distance is just passed through). -/
theorem parse_deepdiff_classification (report : List ReportItem)
    (r : ParseResult) (h : parse_deepdiff report = .ok r) :
    r.paths_added = addedOf (allLevels report) ∧
    r.paths_removed = removedOf (allLevels report) ∧
    r.paths_altered_1 = altered1Of (allLevels report) ∧
    r.paths_altered_2 = altered2Of (allLevels report) ∧
    r.leaf_paths_added = leafAddedOf (allLevels report) ∧
    r.leaf_paths_removed = leafRemovedOf (allLevels report) ∧
    r.leaf_paths_altered_1 = leafAltered1Of (allLevels report) ∧
    r.leaf_paths_altered_2 = leafAltered2Of (allLevels report) ∧
    r.paths_added.length + r.paths_removed.length + r.paths_altered_1.length
      = (allLevels report).length ∧
    r.deep_distance = lastDist 0 report := by
  by_cases hgood : ∀ l ∈ allLevels report, isBad l = false
  · have hok := processItems_ok report emptyResult hgood
    rw [parse_deepdiff] at h
    rw [hok] at h
    injection h with h
    subst h
    refine ⟨by simp [emptyResult], by simp [emptyResult], by simp [emptyResult],
      by simp [emptyResult], by simp [emptyResult], by simp [emptyResult],
      by simp [emptyResult], by simp [emptyResult], ?_, by simp [emptyResult]⟩
    simp only [emptyResult, List.nil_append]
    exact classified_length (allLevels report) hgood
  · exfalso
    have hbad : ∃ l ∈ allLevels report, isBad l = true := by
      push_neg at hgood
      obtain ⟨l, hl, hb⟩ := hgood
      refine ⟨l, hl, ?_⟩
      cases hbl : isBad l
      · exact absurd hbl hb
      · rfl
    rw [parse_deepdiff, processItems_err report emptyResult hbad] at h
    exact Except.noConfusion h

/-- Witness for C3: the classification theorem applied to a concrete
three-item report (distance, one altered entry, one added entry). -/
theorem parse_deepdiff_classification_w :
    rEx.paths_added = addedOf (allLevels reportEx) ∧
    rEx.paths_removed = removedOf (allLevels reportEx) ∧
    rEx.paths_altered_1 = altered1Of (allLevels reportEx) ∧
    rEx.paths_altered_2 = altered2Of (allLevels reportEx) ∧
    rEx.leaf_paths_added = leafAddedOf (allLevels reportEx) ∧
    rEx.leaf_paths_removed = leafRemovedOf (allLevels reportEx) ∧
    rEx.leaf_paths_altered_1 = leafAltered1Of (allLevels reportEx) ∧
    rEx.leaf_paths_altered_2 = leafAltered2Of (allLevels reportEx) ∧
    rEx.paths_added.length + rEx.paths_removed.length +
      rEx.paths_altered_1.length = (allLevels reportEx).length ∧
    rEx.deep_distance = lastDist 0 reportEx :=
  parse_deepdiff_classification reportEx rEx rfl

/-- Claim C4: an entry that is `NotPresent` on both sides makes
`parse_deepdiff` fail loudly with the `ValueError`; it never skips
the entry or returns a result. -/
theorem parse_deepdiff_invalid (report : List ReportItem)
    (h : ∃ l ∈ allLevels report, np l.t1 = true ∧ np l.t2 = true) :
    parse_deepdiff report = .error () := by
  apply processItems_err
  obtain ⟨l, hl, h1, h2⟩ := h
  exact ⟨l, hl, by rw [isBad, h1, h2]; rfl⟩

/-- Witness for C4: a report whose single entry has the sentinel on
both sides is rejected. -/
theorem parse_deepdiff_invalid_w :
    parse_deepdiff reportBad = .error () :=
  parse_deepdiff_invalid reportBad
    ⟨⟨DVal.notPresent, DVal.notPresent, [], []⟩,
     by simp [allLevels, reportBad], rfl, rfl⟩

mutual

/-- The flattening of an entry list has exactly as many entries as
the walk of its values counts. -/
theorem flatten_length (es : List (Key × PVal)) (parent : List Key) :
    (flatten es parent).length = countEntries es := by
  cases es with
  | nil => simp [flatten, countEntries]
  | cons e rest =>
      obtain ⟨k, v⟩ := e
      simp only [flatten, List.length_append, countEntries]
      rw [flattenEntry_length k v parent, flatten_length rest parent]
termination_by esize es
decreasing_by
  all_goals simp [psize, esize, lsize]
  all_goals omega

/-- The flattening of one entry has exactly `countVal` entries. -/
theorem flattenEntry_length (k : Key) (v : PVal) (parent : List Key) :
    (flattenEntry k v parent).length = countVal v := by
  cases v with
  | scalar sc => simp [flattenEntry, countVal]
  | dict es =>
      cases es with
      | nil => simp [flattenEntry, countVal]
      | cons e es2 =>
          simp only [flattenEntry, countVal]
          exact flatten_length (e :: es2) (parent ++ [k])
  | list xs =>
      cases xs with
      | nil => simp [flattenEntry, countVal]
      | cons x xs2 =>
          simp only [flattenEntry, countVal]
          exact flattenList_length (x :: xs2) 0 (parent ++ [k])
termination_by psize v
decreasing_by
  all_goals simp [psize, esize, lsize]

/-- The flattening of the elements of a list has exactly `countList`
entries. -/
theorem flattenList_length (xs : List PVal) (i : Nat) (nk : List Key) :
    (flattenList xs i nk).length = countList xs := by
  cases xs with
  | nil => simp [flattenList, countList]
  | cons x xs2 =>
      simp only [flattenList, List.length_append, countList]
      rw [flatten_length [(Key.i i, x)] nk, flattenList_length xs2 (i + 1) nk]
      simp [countEntries]
termination_by lsize xs
decreasing_by
  all_goals simp [psize, esize, lsize]
  all_goals omega

end

mutual

/-- The combined walk splits into its scalar and empty-container
parts. -/
theorem countVal_split (v : PVal) :
    countVal v = scalarsVal v + emptiesVal v := by
  cases v with
  | scalar sc => simp [countVal, scalarsVal, emptiesVal]
  | dict es =>
      cases es with
      | nil => simp [countVal, scalarsVal, scalarsEntries, emptiesVal]
      | cons e es2 =>
          simp only [countVal, scalarsVal, emptiesVal]
          exact countEntries_split (e :: es2)
  | list xs =>
      cases xs with
      | nil => simp [countVal, scalarsVal, scalarsList, emptiesVal]
      | cons x xs2 =>
          simp only [countVal, scalarsVal, emptiesVal]
          exact countList_split (x :: xs2)

/-- Splitting over the entries of a dictionary. -/
theorem countEntries_split (es : List (Key × PVal)) :
    countEntries es = scalarsEntries es + emptiesEntries es := by
  cases es with
  | nil => simp [countEntries, scalarsEntries, emptiesEntries]
  | cons e rest =>
      obtain ⟨k, v⟩ := e
      simp only [countEntries, scalarsEntries, emptiesEntries]
      rw [countVal_split v, countEntries_split rest]
      omega

/-- Splitting over the elements of a list. -/
theorem countList_split (xs : List PVal) :
    countList xs = scalarsList xs + emptiesList xs := by
  cases xs with
  | nil => simp [countList, scalarsList, emptiesList]
  | cons x xs2 =>
      simp only [countList, scalarsList, emptiesList]
      rw [countVal_split x, countList_split xs2]
      omega

end

/-- Claim C7: the number of entries in the mapping produced by
`flatten` equals the number of scalar values reachable by
exhaustively walking the structure plus one per genuinely empty
container encountered below the top level. -/
theorem flatten_leaf_count (es : List (Key × PVal)) :
    (flatten es []).length = scalarsEntries es + emptiesEntries es := by
  rw [flatten_length es [], countEntries_split es]

/-- Claim C8 counterexample: flattening `{"x": 1}` twice does not
reproduce flattening it once — the path `("x",)` becomes the tuple
key of a one-segment path. -/
theorem flatten_not_idempotent_cex :
    flatten (toDict (flatten dEx [])) [] ≠ flatten dEx [] := by
  have h1 : flatten dEx [] = [([Key.s "x"], Scalar.n 1)] := by
    simp [dEx, flatten, flattenEntry]
  rw [h1]
  have h2 : flatten (toDict [([Key.s "x"], Scalar.n 1)]) [] =
      [([Key.tup [Key.s "x"]], Scalar.n 1)] := by
    simp [toDict, flatten, flattenEntry]
  rw [h2]
  simp

/-- Claim C8 amended: `flatten` is a pure function (determinism is
immediate), but flattening twice is not the identity on flattened
mappings: re-flattening the flattened output turns every entry
`(p, v)` into `([p], v)` whose single segment is the whole path tuple
used as a dictionary key. -/
theorem flatten_reflatten (l : List (List Key × Scalar)) :
    flatten (toDict l) [] = l.map (fun kv => ([Key.tup kv.1], kv.2)) := by
  induction l with
  | nil => simp [toDict, flatten]
  | cons kv rest ih =>
      obtain ⟨p, v⟩ := kv
      rw [show toDict ((p, v) :: rest) =
        (Key.tup p, PVal.scalar v) :: toDict rest from rfl]
      rw [List.map_cons]
      simp only [flatten, flattenEntry]
      rw [ih]
      simp

/-- A member of the flattening of a looked-up entry is a member of
the flattening of the whole dictionary. -/
theorem mem_flatten_of_lookup :
    ∀ (es : List (Key × PVal)) (k : Key) (v : PVal) (parent : List Key)
      (x : List Key × Scalar), lookupKey es k = some v →
      x ∈ flattenEntry k v parent → x ∈ flatten es parent
  | [], k, v, parent, x, hlk, _ => by simp [lookupKey] at hlk
  | (k0, v0) :: rest, k, v, parent, x, hlk, hx => by
      cases hk : keyBeq k0 k with
      | true =>
          simp only [lookupKey, hk, if_true] at hlk
          injection hlk with hlk
          subst hlk
          have hk2 : k0 = k := (keyBeq_iff k0 k).mp hk
          subst hk2
          simp only [flatten]
          exact List.mem_append_left _ hx
      | false =>
          simp only [lookupKey, hk, if_false] at hlk
          simp only [flatten]
          exact List.mem_append_right _
            (mem_flatten_of_lookup rest k v parent x hlk hx)

/-- A member of the flattening of the `n`-th element's singleton dict
is a member of the flattening of the whole list, for the matching
`enumerate` offset. -/
theorem mem_flattenList_of_get :
    ∀ (xs : List PVal) (n : Nat) (w : PVal) (i : Nat) (nk : List Key)
      (x : List Key × Scalar), xs[n]? = some w →
      x ∈ flatten [(Key.i (i + n), w)] nk → x ∈ flattenList xs i nk
  | [], n, w, i, nk, x, hg, _ => by simp at hg
  | y :: ys, 0, w, i, nk, x, hg, hx => by
      simp at hg
      subst hg
      simp only [flattenList]
      apply List.mem_append_left
      simpa using hx
  | y :: ys, n + 1, w, i, nk, x, hg, hx => by
      simp at hg
      simp only [flattenList]
      apply List.mem_append_right
      apply mem_flattenList_of_get ys n w (i + 1) nk x hg
      have heq : i + 1 + n = i + (n + 1) := by omega
      rw [heq]
      exact hx

/-- An empty container reached through a non-empty path below an
entry contributes the `None` leaf at exactly that path. -/
theorem flattenEntry_empty_mem :
    ∀ (ks : List Key) (k : Key) (v : PVal) (parent : List Key),
      (getPath v ks = some (PVal.dict []) ∨ getPath v ks = some (PVal.list [])) →
      (parent ++ k :: ks, Scalar.null) ∈ flattenEntry k v parent
  | [], k, v, parent, hp => by
      rcases hp with hp | hp <;>
        · simp only [getPath, Option.some.injEq] at hp
          subst hp
          simp [flattenEntry]
  | k1 :: ks, k, v, parent, hp => by
      cases v with
      | scalar sc =>
          rcases hp with hp | hp <;> simp [getPath] at hp
      | dict es =>
          cases hlk : lookupKey es k1 with
          | none =>
              rcases hp with hp | hp <;> simp [getPath, hlk] at hp
          | some w =>
              have hp2 : getPath w ks = some (PVal.dict []) ∨
                  getPath w ks = some (PVal.list []) := by
                rcases hp with hp | hp <;> simp only [getPath, hlk] at hp
                · exact Or.inl hp
                · exact Or.inr hp
              have hmem := flattenEntry_empty_mem ks k1 w (parent ++ [k]) hp2
              cases es with
              | nil => simp [lookupKey] at hlk
              | cons e es2 =>
                  have hmem2 := mem_flatten_of_lookup (e :: es2) k1 w
                    (parent ++ [k]) _ hlk hmem
                  simp only [flattenEntry]
                  have heq : parent ++ [k] ++ k1 :: ks = parent ++ k :: k1 :: ks := by
                    rw [List.append_assoc]
                    rfl
                  rw [heq] at hmem2
                  exact hmem2
      | list xs =>
          cases k1 with
          | s str => rcases hp with hp | hp <;> simp [getPath] at hp
          | tup t => rcases hp with hp | hp <;> simp [getPath] at hp
          | i n =>
              cases hg : xs[n]? with
              | none =>
                  rcases hp with hp | hp <;> simp [getPath, hg] at hp
              | some w =>
                  have hp2 : getPath w ks = some (PVal.dict []) ∨
                      getPath w ks = some (PVal.list []) := by
                    rcases hp with hp | hp <;> simp only [getPath, hg] at hp
                    · exact Or.inl hp
                    · exact Or.inr hp
                  have hmem := flattenEntry_empty_mem ks (Key.i n) w
                    (parent ++ [k]) hp2
                  cases xs with
                  | nil => simp at hg
                  | cons x0 xs2 =>
                      have hmem2 : ((parent ++ [k]) ++ Key.i n :: ks, Scalar.null) ∈
                          flatten [(Key.i (0 + n), w)] (parent ++ [k]) := by
                        rw [Nat.zero_add]
                        simp only [flatten]
                        exact List.mem_append_left _ hmem
                      have hmem3 := mem_flattenList_of_get (x0 :: xs2) n w 0
                        (parent ++ [k]) _ hg hmem2
                      simp only [flattenEntry]
                      have heq : parent ++ [k] ++ Key.i n :: ks =
                          parent ++ k :: Key.i n :: ks := by
                        rw [List.append_assoc]
                        rfl
                      rw [heq] at hmem3
                      exact hmem3

/-- Claim C6: every empty mapping or empty sequence reachable at a
non-empty path `p` below the top level contributes the entry
`(p, None)` to the flattening; in particular `flatten {"x": {}}`
equals `{("x",): None}`. -/
theorem flatten_empty_container (entries : List (Key × PVal)) (p : List Key)
    (hne : p ≠ [])
    (hp : getPath (PVal.dict entries) p = some (PVal.dict []) ∨
      getPath (PVal.dict entries) p = some (PVal.list [])) :
    (p, Scalar.null) ∈ flatten entries [] ∧
    flatten [(Key.s "x", PVal.dict [])] [] = [([Key.s "x"], Scalar.null)] := by
  constructor
  · cases p with
    | nil => exact absurd rfl hne
    | cons k ks =>
        cases hlk : lookupKey entries k with
        | none =>
            rcases hp with hp | hp <;> simp [getPath, hlk] at hp
        | some w =>
            have hp2 : getPath w ks = some (PVal.dict []) ∨
                getPath w ks = some (PVal.list []) := by
              rcases hp with hp | hp <;> simp only [getPath, hlk] at hp
              · exact Or.inl hp
              · exact Or.inr hp
            have hmem := flattenEntry_empty_mem ks k w [] hp2
            rw [List.nil_append] at hmem
            exact mem_flatten_of_lookup entries k w [] _ hlk hmem
  · simp [flatten, flattenEntry]

/-- Witness for C6: the structure `{"x": {}}` and the path `("x",)`. -/
theorem flatten_empty_container_w :
    ([Key.s "x"], Scalar.null) ∈ flatten [(Key.s "x", PVal.dict [])] [] ∧
    flatten [(Key.s "x", PVal.dict [])] [] = [([Key.s "x"], Scalar.null)] :=
  flatten_empty_container [(Key.s "x", PVal.dict [])] [Key.s "x"]
    (by simp)
    (Or.inl (by simp [getPath, lookupKey, keyBeq]))
